import Mathlib

/-
Verification of the zapq in-memory FIFO queue server (fifo_queue_server.go).

The core of the program is the `queue` struct: a slice of byte payloads
(`data [][]byte`), a running byte total (`bytes int64`), guarded by a mutex,
plus three process-wide counters (`enqueueCnt`, `dequeueCnt`, `dequeueMiss`)
and two configurable caps (`maxMsgs`, `maxBytes`).  The mutex makes every
operation a short serial critical section, so the sequential functions below
model the visible behaviour of each operation.

Modelling conventions:
- an item (Go `[]byte`) is a `List Nat` of its bytes;
- Go `int64` values (`bytes`, `maxBytes`) are modelled as `Int` and the
  `uint64` counters as `Nat`: with the per-item cap of 128 KiB and the
  configured byte/count caps, all values stay far below 2^63, so machine
  wrap-around is unreachable in any run the caps admit;
- the file system visible to `persist`/`load` is an association list from
  paths to byte contents, read through its first matching entry;
- `encoding/json` on `[][]byte` values is modelled by an executable
  self-describing codec (`encodeItems`/`decodeItems`): a length-prefixed
  list of length-prefixed byte strings, with a decoder that fails on any
  input that does not follow the format, mirroring that the JSON decoder
  fails on malformed snapshot contents and inverts the encoder on
  well-formed ones.
-/

namespace ZapQ

/-- an item is an opaque byte payload, one Go `[]byte` -/
abbrev Item := List Nat

/-- per-item size cap, `const maxBody = 128 * 1024` -/
def maxBody : Nat := 128 * 1024

/-- the configurable caps `maxMsgs` and `maxBytes` (Go `int` / `int64`) -/
structure Config where
  maxMsgs : Int
  maxBytes : Int
deriving Repr, DecidableEq

/-- the `queue` struct: `data [][]byte` and `bytes int64` (the mutex is
modelled by the operations being sequential functions) -/
structure Queue where
  data : List Item
  bytes : Int
deriving Repr, DecidableEq

/-- the zero value `&queue{}` the server starts from -/
def Queue.empty : Queue := ⟨[], 0⟩

/-- the process-wide atomic counters `enqueueCnt`, `dequeueCnt`,
`dequeueMiss` -/
structure Counters where
  enqueueCnt : Nat
  dequeueCnt : Nat
  dequeueMiss : Nat
deriving Repr, DecidableEq

/-- counters at process start -/
def Counters.init : Counters := ⟨0, 0, 0⟩

/-- outcome of `queue.enqueue`: the two error strings and success -/
inductive EnqueueResult
  | payloadTooLarge
  | queueFull
  | accepted
deriving Repr, DecidableEq

/-- `queue.enqueue`: reject when `len(b) > maxBody`; reject when
`len(q.data) >= maxMsgs || q.bytes+int64(len(b)) > maxBytes`; otherwise
append a copy at the tail, add the length to `bytes` and bump
`enqueueCnt` -/
def enqueue (cfg : Config) (q : Queue) (c : Counters) (b : Item) :
    EnqueueResult × Queue × Counters :=
  if b.length > maxBody then
    (.payloadTooLarge, q, c)
  else if (q.data.length : Int) ≥ cfg.maxMsgs ∨
      q.bytes + (b.length : Int) > cfg.maxBytes then
    (.queueFull, q, c)
  else
    (.accepted, ⟨q.data ++ [b], q.bytes + (b.length : Int)⟩,
      { c with enqueueCnt := c.enqueueCnt + 1 })

/-- `queue.dequeue`: on empty bump `dequeueMiss` and return no item;
otherwise remove the head (`q.data[0]`), subtract its length from `bytes`
and bump `dequeueCnt` -/
def dequeue (q : Queue) (c : Counters) : Option Item × Queue × Counters :=
  match q.data with
  | [] => (none, q, { c with dequeueMiss := c.dequeueMiss + 1 })
  | m :: rest =>
      (some m, ⟨rest, q.bytes - (m.length : Int)⟩,
        { c with dequeueCnt := c.dequeueCnt + 1 })

/-- `queue.clear`: drop all items and zero `bytes`; the counters are not
touched -/
def clear (_q : Queue) (c : Counters) : Queue × Counters :=
  (⟨[], 0⟩, c)

/-- `queue.length` -/
def Queue.len (q : Queue) : Nat := q.data.length

/-- `queue.size` -/
def Queue.size (q : Queue) : Int := q.bytes

/-- the `total` recomputation loop in `queue.load`:
`for _, b := range d { total += int64(len(b)) }` -/
def sumLens (l : List Item) : Int :=
  l.foldl (fun t b => t + (b.length : Int)) 0

/-- a path on the durable medium -/
abbrev Path := String

/-- the file system seen by `persist` and `load`: an association list from
paths to full file contents -/
abbrev FS := List (Path × List Nat)

/-- read a file: first matching entry, `none` when the path is absent -/
def fsRead : FS → Path → Option (List Nat)
  | [], _ => none
  | (r, c) :: rest, p => if r = p then some c else fsRead rest p

/-- drop every entry for a path -/
def fsRemove : FS → Path → FS
  | [], _ => []
  | e :: rest, p => if e.1 = p then fsRemove rest p else e :: fsRemove rest p

/-- create or overwrite a file with the given contents -/
def fsWrite (fs : FS) (p : Path) (c : List Nat) : FS :=
  (p, c) :: fsRemove fs p

/-- the temporary path `tmp := p + ".tmp"` used by `persist` -/
def tmpPath (p : Path) : Path := p ++ ".tmp"

/-- self-delimiting encoding of a length used by the snapshot codec model:
a run of ones closed by a zero -/
def encNat (n : Nat) : List Nat :=
  List.replicate n 1 ++ [0]

/-- inverse of `encNat`: strips one encoded length off the stream, failing
on any other shape -/
def decNat : List Nat → Option (Nat × List Nat)
  | 0 :: rest => some (0, rest)
  | 1 :: rest =>
      match decNat rest with
      | some (n, rest2) => some (n + 1, rest2)
      | none => none
  | _ => none

/-- one encoded item: its length followed by its raw bytes -/
def encItem (b : Item) : List Nat :=
  encNat b.length ++ b

/-- take exactly `n` bytes off the stream, failing when too few remain -/
def readBytes : Nat → List Nat → Option (List Nat × List Nat)
  | 0, s => some ([], s)
  | _ + 1, [] => none
  | n + 1, x :: rest =>
      match readBytes n rest with
      | some (bs, rest2) => some (x :: bs, rest2)
      | none => none

/-- decode `k` consecutive encoded items off the stream -/
def decItemsAux : Nat → List Nat → Option (List Item × List Nat)
  | 0, s => some ([], s)
  | k + 1, s =>
      match decNat s with
      | none => none
      | some (n, rest) =>
          match readBytes n rest with
          | none => none
          | some (b, rest2) =>
              match decItemsAux k rest2 with
              | none => none
              | some (items, rest3) => some (b :: items, rest3)

/-- serialize an item list, modelling `json.NewEncoder(f).Encode(snap)` on a
`[][]byte` snapshot: the item count followed by each item length-prefixed -/
def encodeItems (l : List Item) : List Nat :=
  encNat l.length ++ (l.map encItem).flatten

/-- deserialize file contents, modelling `json.NewDecoder(f).Decode(&d)`
into a `[][]byte`: fails on contents not produced by `encodeItems` -/
def decodeItems (s : List Nat) : Option (List Item) :=
  match decNat s with
  | none => none
  | some (k, rest) =>
      match decItemsAux k rest with
      | some (items, []) => some items
      | _ => none

/-- outcome of `queue.persist` -/
inductive PersistResult
  | ok
  | ioError
deriving Repr, DecidableEq

/-- failure injection points of `queue.persist`: `os.Create(tmp)` failing,
the JSON encode failing mid-write, or `f.Close()` failing -/
inductive PersistFailure
  | noFail
  | createFail
  | encodeFail
  | closeFail
deriving Repr, DecidableEq

/-- `queue.persist`: snapshot `q.data` under the lock, create `p + ".tmp"`,
encode the snapshot into it, close, then `os.Rename(tmp, p)`.  On a create
failure nothing is written; on an encode failure the temp file is left
partially written (modelled as empty) and the function returns the error
before renaming; on a close failure the temp file holds the full encoding
but is never renamed.  Only the final rename touches `p`. -/
def persist (q : Queue) (fs : FS) (p : Path) (fail : PersistFailure) :
    PersistResult × FS :=
  match fail with
  | .createFail => (.ioError, fs)
  | .encodeFail => (.ioError, fsWrite fs (tmpPath p) [])
  | .closeFail => (.ioError, fsWrite fs (tmpPath p) (encodeItems q.data))
  | .noFail =>
      (.ok,
        fsWrite
          (fsRemove (fsWrite fs (tmpPath p) (encodeItems q.data)) (tmpPath p))
          p (encodeItems q.data))

/-- every file-system state `persist` passes through, in order: before the
call, after creating the temp file, after encoding into it, and (absent
failure) after the rename -/
def persistTrace (q : Queue) (fs : FS) (p : Path) (fail : PersistFailure) :
    List FS :=
  match fail with
  | .createFail => [fs]
  | .encodeFail => [fs, fsWrite fs (tmpPath p) []]
  | .closeFail =>
      [fs, fsWrite fs (tmpPath p) [],
        fsWrite fs (tmpPath p) (encodeItems q.data)]
  | .noFail =>
      [fs, fsWrite fs (tmpPath p) [],
        fsWrite fs (tmpPath p) (encodeItems q.data),
        fsWrite
          (fsRemove (fsWrite fs (tmpPath p) (encodeItems q.data)) (tmpPath p))
          p (encodeItems q.data)]

/-- outcome of `queue.load` -/
inductive LoadResult
  | ok
  | ioError
  | decodeError
deriving Repr, DecidableEq

/-- `queue.load`: open the file (error when absent), decode the item list
(error on malformed contents, queue untouched), recompute `total` from the
decoded items, then replace `q.data` and `q.bytes` in one locked step -/
def load (q : Queue) (fs : FS) (p : Path) : LoadResult × Queue :=
  match fsRead fs p with
  | none => (.ioError, q)
  | some contents =>
      match decodeItems contents with
      | none => (.decodeError, q)
      | some d => (.ok, ⟨d, sumLens d⟩)

/-- the whole mutable state the operations touch -/
structure State where
  q : Queue
  c : Counters
  fs : FS

/-- one buffer operation, as requested through the HTTP boundary -/
inductive Op
  | enq (b : Item)
  | deq
  | clearOp
  | persistOp (p : Path) (fail : PersistFailure)
  | loadOp (p : Path)

/-- effect of one completed operation on the state -/
def step (cfg : Config) (s : State) : Op → State
  | .enq b =>
      let r := enqueue cfg s.q s.c b
      ⟨r.2.1, r.2.2, s.fs⟩
  | .deq =>
      let r := dequeue s.q s.c
      ⟨r.2.1, r.2.2, s.fs⟩
  | .clearOp =>
      let r := clear s.q s.c
      ⟨r.1, r.2, s.fs⟩
  | .persistOp p fail =>
      let r := persist s.q s.fs p fail
      ⟨s.q, s.c, r.2⟩
  | .loadOp p =>
      let r := load s.q s.fs p
      ⟨r.2, s.c, s.fs⟩

/-- run a finite sequence of completed operations -/
def run (cfg : Config) (s : State) (ops : List Op) : State :=
  ops.foldl (step cfg) s

/-- both capacity caps hold of a queue state -/
def withinCaps (cfg : Config) (q : Queue) : Prop :=
  (q.data.length : Int) ≤ cfg.maxMsgs ∧ q.bytes ≤ cfg.maxBytes

instance (cfg : Config) (q : Queue) : Decidable (withinCaps cfg q) :=
  inferInstanceAs (Decidable (_ ∧ _))

/-- enqueue each element of a list in order, keeping all results -/
def enqueueAll (cfg : Config) (q : Queue) (c : Counters) :
    List Item → Queue × Counters
  | [] => (q, c)
  | b :: rest =>
      let r := enqueue cfg q c b
      enqueueAll cfg r.2.1 r.2.2 rest

/-- every enqueue in the list is accepted when run in order -/
def allAccepted (cfg : Config) (q : Queue) (c : Counters) :
    List Item → Bool
  | [] => true
  | b :: rest =>
      match enqueue cfg q c b with
      | (.accepted, q2, c2) => allAccepted cfg q2 c2 rest
      | _ => false

/-- dequeue `n` times, collecting the returned items in order -/
def dequeueAll (q : Queue) (c : Counters) :
    Nat → List Item × Queue × Counters
  | 0 => ([], q, c)
  | n + 1 =>
      match dequeue q c with
      | (some m, q2, c2) =>
          let r := dequeueAll q2 c2 n
          (m :: r.1, r.2.1, r.2.2)
      | (none, q2, c2) => ([], q2, c2)

/-- the byte-total invariant of a queue state: `bytes` is exactly the sum of
the current item lengths -/
def wf (q : Queue) : Prop := q.bytes = sumLens q.data

-- ------------------------- helper lemmas -----------------------------------

theorem sumLens_shift (l : List Item) (a : Int) :
    l.foldl (fun t b => t + (b.length : Int)) a = a + sumLens l := by
  induction l generalizing a with
  | nil => simp [sumLens]
  | cons b rest ih =>
      simp only [List.foldl_cons, sumLens]
      rw [ih, ih]
      ring

theorem sumLens_nil : sumLens [] = 0 := rfl

theorem sumLens_cons (b : Item) (l : List Item) :
    sumLens (b :: l) = (b.length : Int) + sumLens l := by
  calc sumLens (b :: l)
      = l.foldl (fun t x => t + (x.length : Int)) (0 + (b.length : Int)) := rfl
    _ = (0 + (b.length : Int)) + sumLens l := sumLens_shift l _
    _ = (b.length : Int) + sumLens l := by ring

theorem sumLens_append_one (l : List Item) (b : Item) :
    sumLens (l ++ [b]) = sumLens l + (b.length : Int) := by
  induction l with
  | nil => rw [List.nil_append, sumLens_cons, sumLens_nil]; ring
  | cons x rest ih => rw [List.cons_append, sumLens_cons, ih, sumLens_cons]; ring

theorem fsRead_fsRemove_ne (fs : FS) (t p : Path) (h : t ≠ p) :
    fsRead (fsRemove fs t) p = fsRead fs p := by
  induction fs with
  | nil => rfl
  | cons e rest ih =>
      rcases e with ⟨r, cc⟩
      by_cases he : r = t
      · have hep : r ≠ p := by rw [he]; exact h
        simp only [fsRemove, if_pos he, fsRead, if_neg hep]
        exact ih
      · by_cases hep : r = p
        · simp only [fsRemove, if_neg he, fsRead, if_pos hep]
        · simp only [fsRemove, if_neg he, fsRead, if_neg hep]
          exact ih

theorem fsRead_fsWrite_self (fs : FS) (p : Path) (c : List Nat) :
    fsRead (fsWrite fs p c) p = some c := by
  simp [fsWrite, fsRead]

theorem fsRead_fsWrite_ne (fs : FS) (t p : Path) (c : List Nat) (h : t ≠ p) :
    fsRead (fsWrite fs t c) p = fsRead fs p := by
  simp only [fsWrite, fsRead, if_neg h]
  exact fsRead_fsRemove_ne fs t p h

theorem tmpPath_ne (p : Path) : tmpPath p ≠ p := by
  intro h
  have hlen : (tmpPath p).length = p.length := by rw [h]
  simp [tmpPath, String.length_append] at hlen
  exact absurd hlen (by decide)

theorem decNat_encNat (n : Nat) (t : List Nat) :
    decNat (encNat n ++ t) = some (n, t) := by
  induction n with
  | zero => rfl
  | succ k ih =>
      have hshape : encNat (k + 1) ++ t = 1 :: (encNat k ++ t) := by
        simp [encNat, List.replicate_succ]
      rw [hshape]
      simp [decNat, ih]

theorem readBytes_append (b : Item) (t : List Nat) :
    readBytes b.length (b ++ t) = some (b, t) := by
  induction b with
  | nil => rfl
  | cons x rest ih => simp [readBytes, ih]

theorem decItemsAux_enc (l : List Item) (t : List Nat) :
    decItemsAux l.length ((l.map encItem).flatten ++ t) = some (l, t) := by
  induction l with
  | nil => rfl
  | cons b rest ih =>
      have hshape : ((List.map encItem (b :: rest)).flatten) ++ t
          = encNat b.length ++ (b ++ ((rest.map encItem).flatten ++ t)) := by
        simp [encItem, List.append_assoc]
      simp only [List.length_cons]
      rw [hshape]
      simp [decItemsAux, decNat_encNat, readBytes_append, ih]

theorem decodeItems_encodeItems (l : List Item) :
    decodeItems (encodeItems l) = some l := by
  have h := decItemsAux_enc l []
  rw [List.append_nil] at h
  simp [decodeItems, encodeItems, decNat_encNat, h]

theorem wf_enqueue (cfg : Config) (q : Queue) (c : Counters) (b : Item)
    (h : wf q) : wf (enqueue cfg q c b).2.1 := by
  unfold enqueue
  split
  · exact h
  · split
    · exact h
    · simp only [wf] at h ⊢
      rw [sumLens_append_one, h]

theorem wf_dequeue (q : Queue) (c : Counters) (h : wf q) :
    wf (dequeue q c).2.1 := by
  unfold dequeue
  cases hd : q.data with
  | nil => exact h
  | cons m rest =>
      simp only [wf] at h ⊢
      rw [hd, sumLens_cons] at h
      simp [h]

theorem wf_clear (q : Queue) (c : Counters) : wf (clear q c).1 := rfl

theorem wf_load (q : Queue) (fs : FS) (p : Path) (h : wf q) :
    wf (load q fs p).2 := by
  cases hf : fsRead fs p with
  | none =>
      simp only [load, hf]
      exact h
  | some contents =>
      cases hd : decodeItems contents with
      | none =>
          simp only [load, hf, hd]
          exact h
      | some d => simp [load, hf, hd, wf]

theorem wf_step (cfg : Config) (s : State) (op : Op) (h : wf s.q) :
    wf (step cfg s op).q := by
  cases op with
  | enq b => exact wf_enqueue cfg s.q s.c b h
  | deq => exact wf_dequeue s.q s.c h
  | clearOp => exact wf_clear s.q s.c
  | persistOp p fail => exact h
  | loadOp p => exact wf_load s.q s.fs p h

theorem wf_run (cfg : Config) (s : State) (ops : List Op) (h : wf s.q) :
    wf (run cfg s ops).q := by
  induction ops generalizing s with
  | nil => exact h
  | cons op rest ih => exact ih (step cfg s op) (wf_step cfg s op h)

theorem enqueue_accepted_state (cfg : Config) (q : Queue) (c : Counters)
    (b : Item) (h : (enqueue cfg q c b).1 = .accepted) :
    (enqueue cfg q c b).2.1.data = q.data ++ [b] := by
  unfold enqueue at h ⊢
  split at h
  · exact absurd h (by simp)
  · split at h
    · exact absurd h (by simp)
    · rename_i h1 h2
      simp only [if_neg h1, if_neg h2]

theorem allAccepted_cons (cfg : Config) (q : Queue) (c : Counters) (b : Item)
    (rest : List Item) (h : allAccepted cfg q c (b :: rest) = true) :
    (enqueue cfg q c b).1 = .accepted ∧
    allAccepted cfg (enqueue cfg q c b).2.1 (enqueue cfg q c b).2.2 rest
      = true := by
  unfold allAccepted at h
  rcases he : enqueue cfg q c b with ⟨r, q2, c2⟩
  rw [he] at h
  cases r with
  | accepted => exact ⟨rfl, by simpa using h⟩
  | payloadTooLarge => exact absurd h (by simp)
  | queueFull => exact absurd h (by simp)

theorem enqueueAll_data (cfg : Config) :
    ∀ (es : List Item) (q : Queue) (c : Counters),
      allAccepted cfg q c es = true →
      (enqueueAll cfg q c es).1.data = q.data ++ es := by
  intro es
  induction es with
  | nil => intro q c _; simp [enqueueAll]
  | cons b rest ih =>
      intro q c h
      obtain ⟨h1, h2⟩ := allAccepted_cons cfg q c b rest h
      have hdata := enqueue_accepted_state cfg q c b h1
      unfold enqueueAll
      rw [ih (enqueue cfg q c b).2.1 (enqueue cfg q c b).2.2 h2, hdata]
      simp

theorem dequeueAll_data : ∀ (l : List Item) (bts : Int) (c : Counters),
    (dequeueAll ⟨l, bts⟩ c l.length).1 = l := by
  intro l
  induction l with
  | nil => intro bts c; rfl
  | cons m rest ih =>
      intro bts c
      simp [dequeueAll, dequeue, ih]

-- ------------------------- claim theorems ----------------------------------

/-- C2: strict FIFO order.  For any sequence of enqueues from the empty
buffer that are all accepted, with no interleaved dequeues, the subsequent
dequeues return the items in exactly the enqueued order.  Concretely, with
`maxMsgs = 2` (and the default byte cap): enqueue "A" and "B" are accepted,
enqueue "C" is rejected as full, and three dequeues then return "A", "B",
and finally no item, bumping the miss counter. -/
theorem fifo_order (cfg : Config) (c : Counters) (es : List Item) :
    (allAccepted cfg Queue.empty c es = true →
      (dequeueAll (enqueueAll cfg Queue.empty c es).1
        (enqueueAll cfg Queue.empty c es).2 es.length).1 = es) ∧
    allAccepted ⟨2, 268435456⟩ Queue.empty Counters.init [[65], [66]] = true ∧
    (enqueue ⟨2, 268435456⟩
      (enqueueAll ⟨2, 268435456⟩ Queue.empty Counters.init [[65], [66]]).1
      (enqueueAll ⟨2, 268435456⟩ Queue.empty Counters.init [[65], [66]]).2
      [67]).1 = .queueFull ∧
    (dequeueAll
      (enqueueAll ⟨2, 268435456⟩ Queue.empty Counters.init [[65], [66]]).1
      (enqueueAll ⟨2, 268435456⟩ Queue.empty Counters.init [[65], [66]]).2
      3).1 = [[65], [66]] ∧
    (dequeueAll
      (enqueueAll ⟨2, 268435456⟩ Queue.empty Counters.init [[65], [66]]).1
      (enqueueAll ⟨2, 268435456⟩ Queue.empty Counters.init [[65], [66]]).2
      3).2.2.dequeueMiss = Counters.init.dequeueMiss + 1 := by
  refine ⟨?_, by decide, by decide, by decide, by decide⟩
  intro h
  have hdata := enqueueAll_data cfg es Queue.empty c h
  rcases hq : (enqueueAll cfg Queue.empty c es).1 with ⟨d, bts⟩
  rw [hq] at hdata
  simp only [Queue.empty, List.nil_append] at hdata
  subst hdata
  exact dequeueAll_data d bts _

/-- C2 witness: the general FIFO clause applied to the concrete accepted
sequence "A", "B" under `maxMsgs = 2`. -/
theorem fifo_order_witness :
    allAccepted ⟨2, 268435456⟩ Queue.empty Counters.init [[65], [66]] = true ∧
    (dequeueAll
      (enqueueAll ⟨2, 268435456⟩ Queue.empty Counters.init [[65], [66]]).1
      (enqueueAll ⟨2, 268435456⟩ Queue.empty Counters.init [[65], [66]]).2
      ([[65], [66]] : List Item).length).1 = [[65], [66]] :=
  ⟨by decide,
   (fifo_order ⟨2, 268435456⟩ Counters.init [[65], [66]]).1 (by decide)⟩

/-- C4: oversized rejection.  An item strictly larger than `maxBody` is
rejected with the payload-too-large error — never the queue-full error — on
every buffer state and counter state, leaving both untouched (in particular
the admitted counter), because the size check is decided before the
count/byte-cap check. -/
theorem enqueue_oversized (cfg : Config) (q : Queue) (c : Counters)
    (b : Item) (h : b.length > maxBody) :
    enqueue cfg q c b = (.payloadTooLarge, q, c) := by
  unfold enqueue
  rw [if_pos h]

/-- C4 witness: a 128 KiB + 1 item is rejected as too large on the empty
buffer, which plainly has room. -/
theorem enqueue_oversized_witness :
    (List.replicate (maxBody + 1) 0).length > maxBody ∧
    enqueue ⟨50000, 268435456⟩ Queue.empty Counters.init
        (List.replicate (maxBody + 1) 0)
      = (.payloadTooLarge, Queue.empty, Counters.init) :=
  ⟨by simp only [List.length_replicate]; omega,
   enqueue_oversized ⟨50000, 268435456⟩ Queue.empty Counters.init _
     (by simp only [List.length_replicate]; omega)⟩

/-- C5: dequeue contract.  On an empty buffer, dequeue bumps the
removal-attempted-on-empty counter, returns no item and leaves the queue
untouched; on a non-empty buffer it removes and returns the head item,
subtracts its length from `bytes`, bumps the removed counter and keeps the
remaining items in order. -/
theorem dequeue_contract (q : Queue) (c : Counters) :
    (q.data = [] →
      dequeue q c
        = (none, q, { c with dequeueMiss := c.dequeueMiss + 1 })) ∧
    (∀ m rest, q.data = m :: rest →
      dequeue q c
        = (some m, ⟨rest, q.bytes - (m.length : Int)⟩,
            { c with dequeueCnt := c.dequeueCnt + 1 })) := by
  constructor
  · intro h
    unfold dequeue
    rw [h]
  · intro m rest h
    unfold dequeue
    rw [h]

/-- C5 witness: both branches of the dequeue contract at concrete states. -/
theorem dequeue_contract_witness :
    dequeue Queue.empty Counters.init
      = (none, Queue.empty,
          { Counters.init with dequeueMiss := Counters.init.dequeueMiss + 1 })
      ∧
    dequeue ⟨[[65], [66]], 2⟩ Counters.init
      = (some [65], ⟨[[66]], (2 : Int) - (([65] : Item).length : Int)⟩,
          { Counters.init with dequeueCnt := Counters.init.dequeueCnt + 1 }) :=
  ⟨(dequeue_contract Queue.empty Counters.init).1 rfl,
   (dequeue_contract ⟨[[65], [66]], 2⟩ Counters.init).2 [65] [[66]] rfl⟩

/-- C9: clear frame effect.  After `clear` the buffer holds zero items and
`bytes` is zero, while all three cumulative counters keep exactly the
values they had before the call. -/
theorem clear_frame (q : Queue) (c : Counters) :
    (clear q c).1.data = [] ∧ (clear q c).1.bytes = 0 ∧
    (clear q c).2.enqueueCnt = c.enqueueCnt ∧
    (clear q c).2.dequeueCnt = c.dequeueCnt ∧
    (clear q c).2.dequeueMiss = c.dequeueMiss :=
  ⟨rfl, rfl, rfl, rfl, rfl⟩

/-- C10: per-item size boundary.  An item of length exactly `maxBody`
(131072 bytes) is never rejected as too large — the rejection fires only
for strictly greater lengths — and is admitted whenever the count and byte
caps permit. -/
theorem enqueue_boundary (cfg : Config) (q : Queue) (c : Counters)
    (b : Item) (h : b.length = maxBody) :
    (enqueue cfg q c b).1 ≠ .payloadTooLarge ∧
    ((q.data.length : Int) < cfg.maxMsgs →
      q.bytes + (b.length : Int) ≤ cfg.maxBytes →
      enqueue cfg q c b
        = (.accepted, ⟨q.data ++ [b], q.bytes + (b.length : Int)⟩,
            { c with enqueueCnt := c.enqueueCnt + 1 })) := by
  have hnot : ¬ (b.length > maxBody) := by omega
  constructor
  · unfold enqueue
    rw [if_neg hnot]
    split
    · simp
    · simp
  · intro h1 h2
    have hcap : ¬ ((q.data.length : Int) ≥ cfg.maxMsgs ∨
        q.bytes + (b.length : Int) > cfg.maxBytes) := by
      push_neg
      exact ⟨h1, h2⟩
    unfold enqueue
    rw [if_neg hnot, if_neg hcap]

/-- C10 witness: an exactly-128 KiB item is accepted into the empty buffer
under the default caps. -/
theorem enqueue_boundary_witness :
    (List.replicate maxBody 0).length = maxBody ∧
    (enqueue ⟨50000, 268435456⟩ Queue.empty Counters.init
        (List.replicate maxBody 0)).1 ≠ .payloadTooLarge ∧
    enqueue ⟨50000, 268435456⟩ Queue.empty Counters.init
        (List.replicate maxBody 0)
      = (.accepted,
          ⟨Queue.empty.data ++ [List.replicate maxBody 0],
            Queue.empty.bytes + ((List.replicate maxBody 0).length : Int)⟩,
          { Counters.init with
              enqueueCnt := Counters.init.enqueueCnt + 1 }) :=
  ⟨by simp only [List.length_replicate],
   (enqueue_boundary ⟨50000, 268435456⟩ Queue.empty Counters.init _
     (by simp only [List.length_replicate])).1,
   (enqueue_boundary ⟨50000, 268435456⟩ Queue.empty Counters.init _
     (by simp only [List.length_replicate])).2
     (by simp [Queue.empty])
     (by simp only [Queue.empty, List.length_replicate]
         norm_num [maxBody])⟩

/-- C1 counterexample: the capacity invariant is not preserved by `load`.
With `maxMsgs = 1` and the default byte cap, the empty buffer (reachable:
it is the initial state) is within both caps, yet loading a well-formed
two-item snapshot succeeds and leaves the buffer holding two items,
violating the count cap — `load` installs the decoded snapshot without any
cap check. -/
theorem load_cap_counterexample :
    withinCaps ⟨1, 268435456⟩ Queue.empty ∧
    (load Queue.empty [("f", encodeItems [[65], [66]])] "f").1 = .ok ∧
    ¬ withinCaps ⟨1, 268435456⟩
        (load Queue.empty [("f", encodeItems [[65], [66]])] "f").2 :=
  ⟨by decide, by decide, by decide⟩

/-- C1 amended: enqueue, dequeue and clear keep the buffer within both caps
(clear needs the caps to be nonnegative), while a successful load replaces
the buffer with exactly the decoded snapshot and its recomputed byte total,
enforcing no cap — so after a load the caps hold precisely when the decoded
snapshot itself respects them. -/
theorem caps_preserved_amended (cfg : Config) (q : Queue) (c : Counters) :
    (∀ b, withinCaps cfg q → withinCaps cfg (enqueue cfg q c b).2.1) ∧
    (withinCaps cfg q → withinCaps cfg (dequeue q c).2.1) ∧
    (0 ≤ cfg.maxMsgs → 0 ≤ cfg.maxBytes → withinCaps cfg (clear q c).1) ∧
    (∀ fs p contents d, fsRead fs p = some contents →
      decodeItems contents = some d →
      load q fs p = (.ok, ⟨d, sumLens d⟩)) := by
  refine ⟨?_, ?_, ?_, ?_⟩
  · intro b hq
    unfold enqueue
    split
    · exact hq
    · split
      · exact hq
      · rename_i hbig hfull
        push_neg at hfull
        obtain ⟨h1, h2⟩ := hfull
        constructor
        · simp only [List.length_append, List.length_cons, List.length_nil]
          push_cast
          omega
        · exact h2
  · intro hq
    unfold dequeue
    cases hd : q.data with
    | nil => exact hq
    | cons m rest =>
        obtain ⟨h1, h2⟩ := hq
        rw [hd] at h1
        have hm : (0 : Int) ≤ (m.length : Int) := Int.natCast_nonneg _
        constructor
        · simp only [List.length_cons] at h1
          push_cast at h1 ⊢
          omega
        · simp only
          omega
  · intro h1 h2
    exact ⟨by simpa using h1, by simpa using h2⟩
  · intro fs p contents d hf hd
    simp [load, hf, hd]

/-- C1 amended witness: each clause applied at concrete states under the
default caps. -/
theorem caps_preserved_amended_witness :
    withinCaps ⟨50000, 268435456⟩ Queue.empty ∧
    withinCaps ⟨50000, 268435456⟩
      (enqueue ⟨50000, 268435456⟩ Queue.empty Counters.init [65]).2.1 ∧
    withinCaps ⟨50000, 268435456⟩
      (dequeue Queue.empty Counters.init).2.1 ∧
    withinCaps ⟨50000, 268435456⟩ (clear Queue.empty Counters.init).1 ∧
    load Queue.empty [("f", encodeItems [[65]])] "f"
      = (.ok, ⟨[[65]], sumLens [[65]]⟩) :=
  ⟨by decide,
   (caps_preserved_amended ⟨50000, 268435456⟩ Queue.empty Counters.init).1
     [65] (by decide),
   (caps_preserved_amended ⟨50000, 268435456⟩ Queue.empty Counters.init).2.1
     (by decide),
   (caps_preserved_amended ⟨50000, 268435456⟩ Queue.empty Counters.init).2.2.1
     (by decide) (by decide),
   (caps_preserved_amended ⟨50000, 268435456⟩ Queue.empty
     Counters.init).2.2.2 [("f", encodeItems [[65]])] "f"
     (encodeItems [[65]]) [[65]] (by decide) (by decide)⟩

/-- C3: byte accounting.  After any finite sequence of completed operations
(enqueue, dequeue, clear, persist, load) starting from the empty buffer,
`size()` equals the sum of the lengths of the items currently held; and
`load` either leaves the queue exactly as it was (on failure) or
establishes `bytes` as the total recomputed from the decoded items, never
trusting a stored value. -/
theorem byte_accounting (cfg : Config) (fs0 : FS) (ops : List Op)
    (q : Queue) (fs : FS) (p : Path) :
    Queue.size (run cfg ⟨Queue.empty, Counters.init, fs0⟩ ops).q
      = sumLens (run cfg ⟨Queue.empty, Counters.init, fs0⟩ ops).q.data ∧
    ((load q fs p).2.bytes = sumLens (load q fs p).2.data ∨
      (load q fs p).2 = q) := by
  constructor
  · exact wf_run cfg ⟨Queue.empty, Counters.init, fs0⟩ ops rfl
  · cases hf : fsRead fs p with
    | none => right; simp [load, hf]
    | some contents =>
        cases hd : decodeItems contents with
        | none => right; simp [load, hf, hd]
        | some d => left; simp [load, hf, hd]

/-- C6: snapshot round-trip.  Persisting a buffer whose byte total is
consistent and then loading from that path (into any buffer) succeeds and
yields a buffer whose item sequence is element-wise identical to the
persisted one and whose `size()` equals its `size()` at the moment of
persist. -/
theorem persist_load_roundtrip (q q2 : Queue) (fs : FS) (p : Path)
    (h : q.bytes = sumLens q.data) :
    (persist q fs p .noFail).1 = .ok ∧
    (load q2 (persist q fs p .noFail).2 p).1 = .ok ∧
    ((load q2 (persist q fs p .noFail).2 p).2).data = q.data ∧
    Queue.size ((load q2 (persist q fs p .noFail).2 p).2) = Queue.size q := by
  have hfs : fsRead (persist q fs p .noFail).2 p
      = some (encodeItems q.data) := by
    simp [persist, fsRead_fsWrite_self]
  refine ⟨rfl, ?_, ?_, ?_⟩ <;>
    simp [load, hfs, decodeItems_encodeItems, Queue.size, h]

/-- C6 witness: round trip of a one-item buffer through path "f" on an
empty file system. -/
theorem persist_load_roundtrip_witness :
    (⟨[[65]], 1⟩ : Queue).bytes = sumLens (⟨[[65]], 1⟩ : Queue).data ∧
    ((persist ⟨[[65]], 1⟩ [] "f" .noFail).1 = .ok ∧
     (load Queue.empty (persist ⟨[[65]], 1⟩ [] "f" .noFail).2 "f").1 = .ok ∧
     ((load Queue.empty (persist ⟨[[65]], 1⟩ [] "f" .noFail).2 "f").2).data
        = (⟨[[65]], 1⟩ : Queue).data ∧
     Queue.size ((load Queue.empty
        (persist ⟨[[65]], 1⟩ [] "f" .noFail).2 "f").2)
        = Queue.size ⟨[[65]], 1⟩) :=
  ⟨by decide, persist_load_roundtrip ⟨[[65]], 1⟩ Queue.empty [] "f" (by decide)⟩

/-- C7: load atomicity on failure.  Whenever the source file exists but its
contents do not decode as a serialized item sequence, `load` returns the
decode error and leaves the buffer (items and byte total) exactly as it
was. -/
theorem load_decode_error (q : Queue) (fs : FS) (p : Path)
    (contents : List Nat) (h1 : fsRead fs p = some contents)
    (h2 : decodeItems contents = none) :
    load q fs p = (.decodeError, q) := by
  simp [load, h1, h2]

/-- C7 witness: a malformed one-byte file leaves a non-empty buffer
untouched. -/
theorem load_decode_error_witness :
    fsRead [("f", [2])] "f" = some [2] ∧
    decodeItems [2] = none ∧
    load ⟨[[65]], 1⟩ [("f", [2])] "f" = (.decodeError, ⟨[[65]], 1⟩) :=
  ⟨by decide, by decide,
   load_decode_error ⟨[[65]], 1⟩ [("f", [2])] "f" [2] (by decide) (by decide)⟩

/-- C8: persist atomicity.  On any injected failure (temp-file creation,
encoding, or close) `persist` reports an error and the destination keeps
exactly its prior contents; moreover at every intermediate file-system
state of the operation the destination holds either its prior contents or
the complete encoded snapshot — never a partial one — and the final state
is one of those intermediate states. -/
theorem persist_atomic (q : Queue) (fs : FS) (p : Path)
    (fail : PersistFailure) :
    (fail ≠ .noFail →
      (persist q fs p fail).1 = .ioError ∧
      fsRead (persist q fs p fail).2 p = fsRead fs p) ∧
    (∀ fs2, fs2 ∈ persistTrace q fs p fail →
      fsRead fs2 p = fsRead fs p ∨
      fsRead fs2 p = some (encodeItems q.data)) ∧
    (persist q fs p fail).2 ∈ persistTrace q fs p fail := by
  have hne := tmpPath_ne p
  refine ⟨?_, ?_, ?_⟩
  · intro hf
    cases fail with
    | noFail => exact absurd rfl hf
    | createFail => exact ⟨rfl, rfl⟩
    | encodeFail =>
        exact ⟨rfl, fsRead_fsWrite_ne fs (tmpPath p) p [] hne⟩
    | closeFail =>
        exact ⟨rfl,
          fsRead_fsWrite_ne fs (tmpPath p) p (encodeItems q.data) hne⟩
  · intro fs2 hmem
    cases fail with
    | createFail =>
        simp only [persistTrace, List.mem_singleton] at hmem
        subst hmem
        left; rfl
    | encodeFail =>
        simp only [persistTrace, List.mem_cons, List.not_mem_nil,
          or_false] at hmem
        rcases hmem with hmem | hmem <;> subst hmem
        · left; rfl
        · left; exact fsRead_fsWrite_ne fs (tmpPath p) p [] hne
    | closeFail =>
        simp only [persistTrace, List.mem_cons, List.not_mem_nil,
          or_false] at hmem
        rcases hmem with hmem | hmem | hmem <;> subst hmem
        · left; rfl
        · left; exact fsRead_fsWrite_ne fs (tmpPath p) p [] hne
        · left
          exact fsRead_fsWrite_ne fs (tmpPath p) p (encodeItems q.data) hne
    | noFail =>
        simp only [persistTrace, List.mem_cons, List.not_mem_nil,
          or_false] at hmem
        rcases hmem with hmem | hmem | hmem | hmem <;> subst hmem
        · left; rfl
        · left; exact fsRead_fsWrite_ne fs (tmpPath p) p [] hne
        · left
          exact fsRead_fsWrite_ne fs (tmpPath p) p (encodeItems q.data) hne
        · right; exact fsRead_fsWrite_self _ p _
  · cases fail <;> simp [persist, persistTrace]

/-- C8 witness: a close failure while persisting a one-item buffer to "f"
on an empty file system reports the error and leaves "f" absent, and the
temp-file intermediate state keeps "f" at its prior (absent) contents. -/
theorem persist_atomic_witness :
    ((persist ⟨[[65]], 1⟩ [] "f" .closeFail).1 = .ioError ∧
      fsRead (persist ⟨[[65]], 1⟩ [] "f" .closeFail).2 "f"
        = fsRead [] "f") ∧
    (fsRead (fsWrite [] (tmpPath "f") []) "f" = fsRead [] "f" ∨
      fsRead (fsWrite [] (tmpPath "f") []) "f"
        = some (encodeItems (⟨[[65]], 1⟩ : Queue).data)) :=
  ⟨(persist_atomic ⟨[[65]], 1⟩ [] "f" .closeFail).1 (by decide),
   (persist_atomic ⟨[[65]], 1⟩ [] "f" .closeFail).2.1
     (fsWrite [] (tmpPath "f") []) (by decide)⟩

end ZapQ
